import Mathlib

/-!
Verification of the prompt-translation pipeline in
`scripts/prompt_translator.py` (sd_webui_prompt_translator_architecture).

Strings are modelled as `List Char`.  Python operations used by the source
(negative indexing, slicing, `re.sub`, `re.finditer`, `re.split`, `str.split`,
`str.join`, `str.translate`) are embedded explicitly below.  Fallible code
(Python exceptions: `ValueError` for an unsupported language, `IndexError` for
an out-of-range character access) is modelled with `Except Err`.
The opaque MBart model and the csv translation cache are external
collaborators and are taken as function parameters (`gen`, `cache`).
-/

/-- Errors the pipeline can raise: `ValueError` from
`MBartTranslator.translate` for a language code outside the supported set,
and `IndexError` from an out-of-range string index. -/
inductive Err where
  | unsupportedLanguage
  | indexError
deriving DecidableEq, Repr

/-- Whitespace test, modelling Python's whitespace class (`str.isspace` and
the regex class used by `remove_unnecessary_spaces`) on the ASCII range. -/
def pyIsSpace (c : Char) : Bool :=
  c == ' ' || c == '\t' || c == '\n' || c == '\r' || c == '\x0b' || c == '\x0c'

/-- Python `str.isascii` for a single character: code point at most 0x7F. -/
def pyIsAscii (c : Char) : Bool :=
  c.toNat ≤ 127

/-- Python `text[j]` with negative-index wraparound: a negative index `j`
addresses position `len + j`; anything outside `[-len, len)` is an
`IndexError` (modelled as `none`). -/
def pyGet (text : List Char) (j : Int) : Option Char :=
  if 0 ≤ j then text.get? j.toNat
  else if 0 ≤ j + text.length then text.get? (j + text.length).toNat
  else none

/-- Python slice `s[a:b]`: negative bounds are shifted by the length, then
both bounds are clamped to `[0, len]`. -/
def pySlice (s : List Char) (a b : Int) : List Char :=
  let n : Int := s.length
  let a2 : Int := if a < 0 then a + n else a
  let a' : Int := if a2 < 0 then 0 else if n < a2 then n else a2
  let b2 : Int := if b < 0 then b + n else b
  let b' : Int := if b2 < 0 then 0 else if n < b2 then n else b2
  (s.take b'.toNat).drop a'.toNat

/-- The character-translation table built by `str.maketrans` in
`Script.process_text` (line 448): full-width CJK punctuation to ASCII. -/
def normalizeChar (c : Char) : Char :=
  if c = '，' then ',' else if c = '。' then '.' else if c = '！' then '!'
  else if c = '？' then '?' else if c = '；' then ';' else if c = '：' then ':'
  else if c = '‘' then '\'' else if c = '’' then '\'' else if c = '“' then '"'
  else if c = '”' then '"' else if c = '（' then '(' else if c = '）' then ')'
  else if c = '【' then '[' else if c = '】' then ']' else c

/-- `text.translate(str.maketrans('，。！？；：‘’“”（）【】', ...))`:
a character-by-character substitution. -/
def normalizeText (s : List Char) : List Char :=
  s.map normalizeChar

/-- The maximal runs of `'+'` produced by `re.compile(r'\++').finditer(text)`
in `extract_plus_positions` (lines 249-252), as `(start, end)` pairs in
left-to-right order.  `i` is the absolute position of the scan head and the
third argument carries the start of the run currently being scanned. -/
def plusRunsGo : List Char → Nat → Option Nat → List (Nat × Nat)
  | [], _, none => []
  | [], i, some s => [(s, i)]
  | c :: rest, i, none =>
    if c = '+' then plusRunsGo rest (i + 1) (some i)
    else plusRunsGo rest (i + 1) none
  | c :: rest, i, some s =>
    if c = '+' then plusRunsGo rest (i + 1) (some s)
    else (s, i) :: plusRunsGo rest (i + 1) none

/-- All maximal contiguous runs of `'+'` in `text`, starting the scan at
absolute position `i`. -/
def plusRuns (text : List Char) (i : Nat) : List (Nat × Nat) :=
  plusRunsGo text i none

/-- The backward scan `j = e - 1; while text[j] == '+': j -= 1; j += 1`
of `extract_plus_positions` (lines 260-263 and 270-273), with Python's
negative indexing; walking below index `-len` is an `IndexError`.
Structured with fuel; each step moves `j` down by one and the scan stops no
later than index `-len - 1`, so the fuel passed by `backScan` is never
exhausted. -/
def backScanGo (text : List Char) : Nat → Int → Except Err Int
  | 0, _ => .error .indexError
  | fuel + 1, j =>
    match pyGet text j with
    | none => .error .indexError
    | some c => if c = '+' then backScanGo text fuel (j - 1) else .ok (j + 1)

/-- Runs the backward `'+'` scan from index `j` and returns the final
(incremented) index, Python-style. -/
def backScan (text : List Char) (j : Int) : Except Err Int :=
  backScanGo text (text.length + j.toNat + 2) j

/-- The `for match in matches` loop of `extract_plus_positions`
(lines 255-266): a position `[j, l, l - j]` is appended for the previous
match only when the current match does not start where the previous one
ended, with `j` recomputed by the backward scan. -/
def eppLoop (text : List Char) :
    List (Nat × Nat) → Option Nat → List (Int × Int × Int) →
    Except Err (List (Int × Int × Int) × Option Nat)
  | [], last, acc => .ok (acc, last)
  | (s, e) :: ms, last, acc =>
    match last with
    | none => eppLoop text ms (some e) acc
    | some l =>
      if s ≠ l then
        match backScan text ((l : Int) - 1) with
        | .error er => .error er
        | .ok j => eppLoop text ms (some e) (acc ++ [(j, (l : Int), (l : Int) - j)])
      else eppLoop text ms (some e) acc

/-- `extract_plus_positions(text)` (lines 236-276): the loop over the regex
matches followed by the final-match check `last_match_end == len(text)`
(lines 269-274). -/
def extract_plus_positions (text : List Char) : Except Err (List (Int × Int × Int)) :=
  match eppLoop text (plusRuns text 0) none [] with
  | .error e => .error e
  | .ok (acc, last) =>
    match last with
    | none => .ok acc
    | some l =>
      if l = text.length then
        match backScan text ((l : Int) - 1) with
        | .error e => .error e
        | .ok j => .ok (acc ++ [(j, (l : Int), (l : Int) - j)])
      else .ok acc

/-- The `for in_, out_ in zip(...)` loop of `match_pluses` (lines 300-307)
together with the final `translated_text[out_current_pos:]` append
(line 310): copies translated text up to each translated run, splices the
original run's slice, and advances past the translated run. -/
def spliceLoop (original translated : List Char) :
    List ((Int × Int × Int) × (Int × Int × Int)) → Int → List Char
  | [], cur => pySlice translated cur translated.length
  | (in_, out_) :: rest, cur =>
    pySlice translated cur out_.1 ++ pySlice original in_.1 in_.2.1 ++
      spliceLoop original translated rest out_.2.1

/-- `match_pluses(original_text, translated_text)` (lines 279-314): when the
two extracted position lists have equal length the splice loop runs,
otherwise the translated text is returned as `translated_text[0:]`.  The
`in_[2] != out_[2]` comparison in the source only prints a diagnostic and
does not affect the output. -/
def match_pluses (original translated : List Char) : Except Err (List Char) :=
  match extract_plus_positions original, extract_plus_positions translated with
  | .ok in_positions, .ok out_positions =>
    if in_positions.length = out_positions.length then
      .ok (spliceLoop original translated (in_positions.zip out_positions) 0)
    else
      .ok (pySlice translated 0 translated.length)
  | .error e, _ => .error e
  | .ok _, .error e => .error e

/-- First alternative `\)\s*\+\+` of the `remove_unnecessary_spaces` pattern
(line 231) matched at the head of `s`: a `')'`, a greedy whitespace run, then
two `'+'`.  Returns the remainder after the match.  (The regex classes `\s`
and `\+` are disjoint, so the greedy `\s*` matches exactly the maximal
whitespace run.) -/
def rusMatch (s : List Char) : Option (List Char) :=
  match s with
  | ')' :: rest =>
    match rest.dropWhile pyIsSpace with
    | '+' :: '+' :: tail => some tail
    | _ => none
  | _ => none

/-- Second alternative `\)\+\+\s*` of the pattern, matched at the head of
`s`; tried only when the first alternative fails (Python alternation is
ordered). -/
def rusMatch2 (s : List Char) : Option (List Char) :=
  match s with
  | ')' :: '+' :: '+' :: tail => some (tail.dropWhile pyIsSpace)
  | _ => none

/-- The scan of `re.sub(pattern, ")++", text)`: at each position try the
pattern (first alternative, then second), emit the replacement `")++"` and
continue after the match, otherwise emit the character and move on.  Fuel
decreases by one per emitted character or match, so `length s` suffices. -/
def rusGo : Nat → List Char → List Char
  | 0, s => s
  | fuel + 1, s =>
    match s with
    | [] => []
    | c :: rest =>
      match rusMatch (c :: rest) with
      | some tail => ')' :: '+' :: '+' :: rusGo fuel tail
      | none =>
        match rusMatch2 (c :: rest) with
        | some tail => ')' :: '+' :: '+' :: rusGo fuel tail
        | none => c :: rusGo fuel rest

/-- `remove_unnecessary_spaces(text)` (lines 229-233):
`re.sub(r"\)\s*\+\+|\)\+\+\s*", ")++", text)`. -/
def remove_unnecessary_spaces (s : List Char) : List Char :=
  rusGo s.length s

/-- `post_process_prompt(original, translated)` (lines 317-322): space
removal followed by plus-run reconciliation. -/
def post_process_prompt (original translated : List Char) : Except Err (List Char) :=
  match_pluses original (remove_unnecessary_spaces translated)

/-- Finds the leftmost match of the directive pattern `<[^>]*>` used by
`re.split` in `Script.process_text` (line 450): the first `'<'` that is
followed by a `'>'`; the directive runs to that first `'>'` inclusive.
Returns `(text before, directive, text after)`. -/
def findDirective : List Char → Option (List Char × List Char × List Char)
  | [] => none
  | c :: rest =>
    if c = '<' then
      match rest.dropWhile (fun x => x ≠ '>') with
      | '>' :: tail =>
        some ([], '<' :: (rest.takeWhile (fun x => x ≠ '>')) ++ ['>'], tail)
      | _ => none
    else
      match findDirective rest with
      | some (pre, d, post) => some (c :: pre, d, post)
      | none => none

/-- The alternating part list of `re.split(r'(<[^>]*>)', text)`: literal
text, first directive, literal text, second directive, ..., trailing
literal text.  Fuel decreases by one per directive; a directive is at least
two characters, so `length s` fuel is never exhausted (and the exhaustion
branch returns the unsplit remainder, preserving concatenation). -/
def psGo : Nat → List Char → List (List Char)
  | 0, s => [s]
  | fuel + 1, s =>
    match findDirective s with
    | none => [s]
    | some (pre, d, post) => pre :: d :: psGo fuel post

/-- `re.split(r'(<[^>]*>)', text)` with the capture group kept. -/
def pySplitDirectives (s : List Char) : List (List Char) :=
  psGo s.length s

/-- `part.startswith('<')`. -/
def pyStartsWith (l : List Char) (c : Char) : Bool :=
  match l with
  | [] => false
  | x :: _ => x == c

/-- `part.endswith('>')`. -/
def pyEndsWith (l : List Char) (c : Char) : Bool :=
  match l.getLast? with
  | some x => x == c
  | none => false

/-- The directive test applied to each part in `Script.process_text`
(line 455): `part.startswith('<') and part.endswith('>')`. -/
def checkDir (l : List Char) : Bool :=
  pyStartsWith l '<' && pyEndsWith l '>'

/-- The directive spans of a string: the parts of the segmenter's output
that pass the directive test. -/
def directiveSpans (s : List Char) : List (List Char) :=
  (pySplitDirectives s).filter checkDir

/-- Python `part.split(',')`: empty fragments are allowed and preserved. -/
def splitComma : List Char → List (List Char)
  | [] => [[]]
  | c :: rest =>
    if c = ',' then [] :: splitComma rest
    else
      match splitComma rest with
      | [] => [[c]]
      | f :: fs => (c :: f) :: fs

/-- Python `','.join(fragments)`. -/
def joinComma : List (List Char) → List Char
  | [] => []
  | [f] => f
  | f :: fs => f ++ ',' :: joinComma fs

/-- `Script.is_english(text)` (lines 429-431):
`all(c.isascii() or c.isspace() for c in text)`. -/
def is_english (t : List Char) : Bool :=
  t.all (fun c => pyIsAscii c || pyIsSpace c)

/-- `MBartTranslator.supported_languages` (lines 26-94), verbatim, in source
order (including the duplicated `ja_XX` entry). -/
def supported_languages : List String :=
  ["ar_AR", "de_DE", "en_XX", "es_XX", "fr_XX", "hi_IN", "it_IT", "ja_XX",
   "ko_XX", "pt_XX", "ru_RU", "zh_XX", "af_ZA", "bn_BD", "bs_XX", "ca_XX",
   "cs_CZ", "da_XX", "el_GR", "et_EE", "fa_IR", "fi_FI", "gu_IN", "he_IL",
   "hi_XX", "hr_HR", "hu_HU", "id_ID", "is_IS", "ja_XX", "jv_XX", "ka_GE",
   "kk_XX", "km_KH", "kn_IN", "ko_KR", "lo_LA", "lt_LT", "lv_LV", "mk_MK",
   "ml_IN", "mr_IN", "ms_MY", "ne_NP", "nl_XX", "no_XX", "pl_XX", "ro_RO",
   "si_LK", "sk_SK", "sl_SI", "sq_AL", "sr_XX", "sv_XX", "sw_TZ", "ta_IN",
   "te_IN", "th_TH", "tl_PH", "tr_TR", "uk_UA", "ur_PK", "vi_VN", "war_PH",
   "yue_XX", "zh_CN", "zh_TW"]

/-- `MBartTranslator.translate(text, input_language, output_language)`
(lines 103-126): raises `ValueError` when either language code is outside
the supported set, otherwise invokes the opaque model `gen`. -/
def mbart_translate (gen : List Char → String → String → List Char)
    (text : List Char) (input_language output_language : String) :
    Except Err (List Char) :=
  if input_language ∉ supported_languages then .error .unsupportedLanguage
  else if output_language ∉ supported_languages then .error .unsupportedLanguage
  else .ok (gen text input_language output_language)

/-- `Script.transfer(text, ln_code)` (lines 433-444): the csv cache
(`load_csv` + `custom_translate`, taken here as the lookup function `cache`)
is consulted first; on a miss the opaque translator is invoked with target
`"en_XX"`.  The second component records the arguments actually passed to
the opaque translator. -/
def transferC (gen : List Char → String → String → List Char)
    (cache : List Char → Option (List Char)) (ln : String) (t : List Char) :
    Except Err (List Char × List (List Char)) :=
  match cache t with
  | some r => .ok (r, [])
  | none =>
    match mbart_translate gen t ln "en_XX" with
    | .error e => .error e
    | .ok r => .ok (r, [t])

/-- The fragment comprehension of `Script.process_text` (lines 459-460):
each comma fragment is passed through unchanged when `is_english` holds and
otherwise given to `transfer`. -/
def translateFragmentsC (gen : List Char → String → String → List Char)
    (cache : List Char → Option (List Char)) (ln : String) :
    List (List Char) → Except Err (List (List Char) × List (List Char))
  | [] => .ok ([], [])
  | f :: fs =>
    match (if is_english f then Except.ok (f, ([] : List (List Char)))
           else transferC gen cache ln f) with
    | .error e => .error e
    | .ok (r, cs) =>
      match translateFragmentsC gen cache ln fs with
      | .error e => .error e
      | .ok (rs, cs') => .ok (r :: rs, cs ++ cs')

/-- The `for part in parts` loop of `Script.process_text` (lines 453-461):
directive parts are appended untouched; literal parts are split on commas,
translated fragment-wise, and rejoined with commas. -/
def translatePartsC (gen : List Char → String → String → List Char)
    (cache : List Char → Option (List Char)) (ln : String) :
    List (List Char) → Except Err (List Char × List (List Char))
  | [] => .ok ([], [])
  | part :: rest =>
    if checkDir part then
      match translatePartsC gen cache ln rest with
      | .error e => .error e
      | .ok (out, cs) => .ok (part ++ out, cs)
    else
      match translateFragmentsC gen cache ln (splitComma part) with
      | .error e => .error e
      | .ok (frs, cs) =>
        match translatePartsC gen cache ln rest with
        | .error e => .error e
        | .ok (out, cs') => .ok (joinComma frs ++ out, cs ++ cs')

/-- `Script.process_text(text, ln_code)` (lines 446-464): punctuation
normalization, directive segmentation, per-part translation, rejoin.  The
second component is the list of texts passed to the opaque translator. -/
def process_textC (gen : List Char → String → String → List Char)
    (cache : List Char → Option (List Char)) (ln : String) (text : List Char) :
    Except Err (List Char × List (List Char)) :=
  translatePartsC gen cache ln (pySplitDirectives (normalizeText text))

/-- One prompt through the translation stage and post-processing, as in the
body of the `Script.process` loop (lines 481-484). -/
def processOnePromptC (gen : List Char → String → String → List Char)
    (cache : List Char → Option (List Char)) (ln : String) (p : List Char) :
    Except Err (List Char × List (List Char)) :=
  match process_textC gen cache ln p with
  | .error e => .error e
  | .ok (t, cs) =>
    match post_process_prompt p t with
    | .error e => .error e
    | .ok r => .ok (r, cs)

/-- The prompt loop of `Script.process` (lines 475-491) with
`previous_prompt` / `previous_translated_prompt` threading: a prompt equal
to the immediately preceding one copies the previous translation.  Returns
`(output slots, prompts that entered the translating branch, texts passed
to the opaque translator)`. -/
def translateLoop (gen : List Char → String → String → List Char)
    (cache : List Char → Option (List Char)) (ln : String)
    (prev prevT : List Char) :
    List (List Char) →
    Except Err (List (List Char) × List (List Char) × List (List Char))
  | [] => .ok ([], [], [])
  | p :: ps =>
    if prev ≠ p then
      match processOnePromptC gen cache ln p with
      | .error e => .error e
      | .ok (tp, cs) =>
        match translateLoop gen cache ln p tp ps with
        | .error e => .error e
        | .ok (outs, inv, cs') => .ok (tp :: outs, p :: inv, cs ++ cs')
    else
      match translateLoop gen cache ln prev prevT ps with
      | .error e => .error e
      | .ok (outs, inv, cs') => .ok (prevT :: outs, inv, cs')

/-- The host's prompt object, restricted to the fields `Script.process`
reads and writes. -/
structure PObj where
  prompt : List Char
  all_prompts : List (List Char)
  negative_prompt : List Char
  all_negative_prompts : List (List Char)
  prompt_for_display : List Char
deriving DecidableEq, Repr

/-- `Script.process(p, language)` (lines 466-517) for an active script:
`get_prompts`, the prompt loop, the guarded negative-prompt loop, and the
final field substitutions.  The source obtains the language code from the
dropdown index (`language_options[language].language_code`); here the code
itself is the parameter, matching the host-callback interface.  All field
assignments in the source happen after both loops have completed, and the
`[0]` accesses are modelled as `IndexError` on an empty list; an error
leaves the prompt object untouched (the Python exception propagates before
any assignment).  The second result component collects every text passed to
the opaque translator. -/
def script_process (gen : List Char → String → String → List Char)
    (cache : List Char → Option (List Char)) (ln : String)
    (negActive : Bool) (p : PObj) : Except Err (PObj × List (List Char)) :=
  match translateLoop gen cache ln [] []
      (if 0 < p.all_prompts.length then p.all_prompts else [p.prompt]) with
  | .error e => .error e
  | .ok (touts, _, cs1) =>
    if p.negative_prompt ≠ [] ∧ negActive = true then
      match translateLoop gen cache ln [] []
          (if 0 < p.all_negative_prompts.length then p.all_negative_prompts
           else [p.negative_prompt]) with
      | .error e => .error e
      | .ok (nouts, _, cs2) =>
        match nouts with
        | [] => .error .indexError
        | n0 :: _ =>
          match touts with
          | [] => .error .indexError
          | t0 :: _ => .ok (⟨t0, touts, n0, nouts, t0⟩, cs1 ++ cs2)
    else
      match touts with
      | [] => .error .indexError
      | t0 :: _ =>
        .ok (⟨t0, touts, p.negative_prompt, p.all_negative_prompts, t0⟩, cs1)

/-- A concrete opaque-translator behaviour used in closed statements. -/
def constGen : List Char → String → String → List Char :=
  fun _ _ _ => []

/-- A concrete empty translation cache used in closed statements. -/
def emptyCache : List Char → Option (List Char) :=
  fun _ => none

/-- Extracted `(start, end)` run pairs as the `[start, end, count]` triples
of `extract_plus_positions`. -/
def toTriples (rs : List (Nat × Nat)) : List (Int × Int × Int) :=
  rs.map (fun r => ((r.1 : Int), (r.2 : Int), (r.2 : Int) - (r.1 : Int)))

/-- Lock-step splice following the specification's words for the
reconciler's equal-count case: for each pair of runs, copy the translated
text up to the translated run's start, splice in the original run's literal
text, then advance past the translated run; trailing translated text is
appended verbatim. -/
def spliceGo (o t : List Char) : List (Nat × Nat) → List (Nat × Nat) → Nat → List Char
  | [], _, cur => t.drop cur
  | _ :: _, [], cur => t.drop cur
  | (is, ie) :: ins, (os, oe) :: outs, cur =>
    ((t.take os).drop cur) ++ ((o.take ie).drop is) ++ spliceGo o t ins outs oe

/-- The specification-side reconciliation result: the splice driven by the
maximal `'+'` runs of the original and of the translated text. -/
def specSplice (o t : List Char) : List Char :=
  spliceGo o t (plusRuns o 0) (plusRuns t 0) 0

/-- Tests whether a string begins with at least two `'+'` characters. -/
def plusPlusHead : List Char → Bool
  | '+' :: '+' :: _ => true
  | _ => false

/-- Specification-side statement of the space-tightening normalization, per
the amended claim: whenever a `')'` is followed by a nonempty whitespace run
and then at least two `'+'`, that whitespace run is deleted; every other
character is kept in place. -/
def tightenGo : Nat → List Char → List Char
  | 0, s => s
  | fuel + 1, s =>
    match s with
    | [] => []
    | c :: rest =>
      if c = ')' ∧ rest.takeWhile pyIsSpace ≠ [] ∧
          plusPlusHead (rest.dropWhile pyIsSpace) = true then
        c :: tightenGo fuel (rest.dropWhile pyIsSpace)
      else c :: tightenGo fuel rest

/-- The space-tightening normalization stated from the amended claim. -/
def tightenSpec (s : List Char) : List Char :=
  tightenGo s.length s

/-- The batch positions that enter the translating branch of the prompt
loop, per the amended claim: a prompt is re-processed exactly when it
differs from its immediate predecessor (the comparison value starts as the
empty string); a prompt equal to its immediate predecessor is skipped. -/
def adjacentNew (prev : List Char) : List (List Char) → List (List Char)
  | [] => []
  | p :: ps => if prev ≠ p then p :: adjacentNew p ps else adjacentNew prev ps

/-! Utility lemmas about the Python-operation embeddings. -/

theorem pySlice_coe (s : List Char) (a b : Nat) :
    pySlice s (a : Int) (b : Int) = (s.take b).drop a := by
  have hb0 : ¬ ((b : Int) < 0) := by omega
  have ha0 : ¬ ((a : Int) < 0) := by omega
  simp only [pySlice, if_neg hb0, if_neg ha0]
  by_cases hb : ((s.length : Nat) : Int) < (b : Int)
  · by_cases ha : ((s.length : Nat) : Int) < (a : Int)
    · simp only [if_pos hb, if_pos ha, Int.toNat_natCast]
      rw [List.take_of_length_le (Nat.le_refl _), List.take_of_length_le (by omega),
        List.drop_eq_nil_of_le (Nat.le_refl _), List.drop_eq_nil_of_le (by omega)]
    · simp only [if_pos hb, if_neg ha, Int.toNat_natCast]
      rw [List.take_of_length_le (Nat.le_refl _), List.take_of_length_le (by omega)]
  · by_cases ha : ((s.length : Nat) : Int) < (a : Int)
    · simp only [if_neg hb, if_pos ha, Int.toNat_natCast]
      have h1 : (s.take b).length ≤ s.length := by
        rw [List.length_take]; omega
      have h2 : (s.take b).length ≤ a := by
        rw [List.length_take]; omega
      rw [List.drop_eq_nil_of_le h1, List.drop_eq_nil_of_le h2]
    · simp only [if_neg hb, if_neg ha, Int.toNat_natCast]

theorem pySlice_drop (t : List Char) (a : Nat) :
    pySlice t (a : Int) t.length = t.drop a := by
  have := pySlice_coe t a t.length
  simpa [List.take_length] using this

/-- A nonempty `dropWhile` result starts with a character failing the
predicate. -/
theorem dropWhile_head_false {p : Char → Bool} :
    ∀ (l : List Char) (x : Char) (xs : List Char),
      l.dropWhile p = x :: xs → p x = false := by
  intro l
  induction l with
  | nil => intro x xs h; simp [List.dropWhile] at h
  | cons c rest ih =>
    intro x xs h
    rw [List.dropWhile_cons] at h
    by_cases hc : p c
    · rw [if_pos hc] at h
      exact ih x xs h
    · rw [if_neg hc] at h
      cases h
      simpa using hc

/-- Structure of a found directive: the three pieces concatenate back to
the input, the directive is bracketed, and the preceding literal contains
no `'<'` at all (a `'<'` before the leftmost match would itself match). -/
theorem fd_spec :
    ∀ (s pre d post : List Char), findDirective s = some (pre, d, post) →
      pre ++ d ++ post = s ∧ (∃ body, d = '<' :: body ++ ['>']) ∧ '<' ∉ pre := by
  intro s
  induction s with
  | nil => intro pre d post h; simp [findDirective] at h
  | cons c rest ih =>
    intro pre d post h
    simp only [findDirective] at h
    by_cases hc : c = '<'
    · rw [if_pos hc] at h
      subst hc
      split at h
      · rename_i tail heq
        simp only [Option.some.injEq, Prod.mk.injEq] at h
        obtain ⟨rfl, rfl, rfl⟩ := h
        refine ⟨?_, ⟨rest.takeWhile (fun x => x ≠ '>'), rfl⟩, by simp⟩
        have hsplit := List.takeWhile_append_dropWhile (p := fun x => x ≠ '>') (l := rest)
        rw [heq] at hsplit
        simp only [List.nil_append, List.cons_append, List.append_assoc,
          List.singleton_append]
        rw [hsplit]
      · exact absurd h (by simp)
    · rw [if_neg hc] at h
      split at h
      · rename_i pre' d' post' heq
        simp only [Option.some.injEq, Prod.mk.injEq] at h
        obtain ⟨rfl, rfl, rfl⟩ := h
        obtain ⟨hsum, hshape, hpre⟩ := ih pre' d' post' heq
        refine ⟨?_, hshape, ?_⟩
        · simp only [List.cons_append]
          rw [List.append_assoc] at hsum ⊢
          rw [hsum]
        · intro hmem
          rcases List.mem_cons.mp hmem with h | h
          · exact hc h.symm
          · exact hpre h
      · exact absurd h (by simp)

/-- Concatenating the split parts reproduces the input, for any fuel. -/
theorem psGo_join : ∀ (fuel : Nat) (s : List Char), (psGo fuel s).flatten = s := by
  intro fuel
  induction fuel with
  | zero => intro s; simp [psGo]
  | succ n ih =>
    intro s
    simp only [psGo]
    cases h : findDirective s with
    | none => simp
    | some r =>
      obtain ⟨pre, d, post⟩ := r
      obtain ⟨hsum, -, -⟩ := fd_spec s pre d post h
      simp [ih post, ← hsum]

/-- Claim C9: concatenating, in order, the segments produced by the
control-span segmenter (directive spans matching `<...>` and the literal
text between them) reproduces the input string exactly — including inputs
with an unmatched `'<'`, which stays in the literal text. -/
theorem segmenter_round_trip (s : List Char) : (pySplitDirectives s).flatten = s :=
  psGo_join s.length s

/-- Claim C3 (code bug): on `"a++b"` the extractor returns no positions at
all, although the text has exactly one maximal run `(1, 3)` (reported here
by the faithful embedding `plusRuns` of the regex scan the source itself
performs).  The source only appends a run when a later run follows it or
when it ends exactly at the end of the string, contradicting its own
docstring ("a list of [start, end, count] for each match"). -/
theorem extractor_drops_final_run :
    extract_plus_positions ['a', '+', '+', 'b'] = .ok [] ∧
    plusRuns ['a', '+', '+', 'b'] 0 = [(1, 3)] :=
  ⟨rfl, rfl⟩

/-- Claim C4 (code bug): for the supported language `"zh_CN"` the prompt
`"+++"` crashes the whole batch with an `IndexError` instead of degrading
gracefully: the backward scan of `extract_plus_positions` walks off the
front of the string and Python's negative indexing then runs past `-len`. -/
theorem all_plus_prompt_crashes :
    "zh_CN" ∈ supported_languages ∧
    script_process constGen emptyCache "zh_CN" false
      ⟨['+', '+', '+'], [['+', '+', '+']], [], [], ['+', '+', '+']⟩ =
      .error .indexError :=
  ⟨by decide, rfl⟩

/-! Equivalence of `remove_unnecessary_spaces` with its specification-side
characterization `tightenSpec`. -/

theorem rusMatch_some {s tail : List Char} (h : rusMatch s = some tail) :
    ∃ rest, s = ')' :: rest ∧ rest.dropWhile pyIsSpace = '+' :: '+' :: tail := by
  unfold rusMatch at h
  split at h
  · rename_i rest
    split at h
    · rename_i t heq
      cases h
      exact ⟨rest, rfl, heq⟩
    · cases h
  · cases h

theorem rusMatch2_some {s tail : List Char} (h : rusMatch2 s = some tail) :
    ∃ t, s = ')' :: '+' :: '+' :: t ∧ tail = t.dropWhile pyIsSpace := by
  unfold rusMatch2 at h
  split at h
  · rename_i t
    cases h
    exact ⟨t, rfl, rfl⟩
  · cases h

theorem rusMatch_of_dropWhile {rest tail : List Char}
    (hd : rest.dropWhile pyIsSpace = '+' :: '+' :: tail) :
    rusMatch (')' :: rest) = some tail := by
  simp only [rusMatch, hd]

theorem plusPlusHead_true {l : List Char} (h : plusPlusHead l = true) :
    ∃ t, l = '+' :: '+' :: t := by
  unfold plusPlusHead at h
  split at h
  · rename_i t
    exact ⟨t, rfl⟩
  · cases h

/-- Unfolding `tightenGo` over a character that is not `')'` keeps it. -/
theorem tightenGo_not_rparen (k : Nat) (c : Char) (xs : List Char) (hc : c ≠ ')') :
    tightenGo (k + 1) (c :: xs) = c :: tightenGo k xs := by
  simp only [tightenGo]
  rw [if_neg (by intro hcontra; exact hc hcontra.1)]

/-- Unfolding `tightenGo` on a `')'` whose following whitespace (possibly
empty) is followed by two `'+'`: the whitespace is dropped. -/
theorem tightenGo_rparen_match (k : Nat) (rest tail : List Char)
    (hd : rest.dropWhile pyIsSpace = '+' :: '+' :: tail) :
    tightenGo (k + 1) (')' :: rest) = ')' :: tightenGo k ('+' :: '+' :: tail) := by
  have h1 : tightenGo (k + 1) (')' :: rest) =
      if ')' = ')' ∧ rest.takeWhile pyIsSpace ≠ [] ∧
          plusPlusHead (rest.dropWhile pyIsSpace) = true then
        ')' :: tightenGo k (rest.dropWhile pyIsSpace)
      else ')' :: tightenGo k rest := rfl
  rw [h1]
  by_cases hw : rest.takeWhile pyIsSpace = []
  · rw [if_neg (fun hcontra => hcontra.2.1 hw)]
    have hsplit := List.takeWhile_append_dropWhile (p := pyIsSpace) (l := rest)
    rw [hw, List.nil_append] at hsplit
    rw [← hd, hsplit]
  · rw [if_pos ⟨rfl, hw, by rw [hd]; rfl⟩, hd]

/-- Unfolding `tightenGo` on a `')'` that the source pattern does not
match: the character is kept and the scan moves on. -/
theorem tightenGo_rparen_nomatch (k : Nat) (rest : List Char)
    (hno : rusMatch (')' :: rest) = none) :
    tightenGo (k + 1) (')' :: rest) = ')' :: tightenGo k rest := by
  have h1 : tightenGo (k + 1) (')' :: rest) =
      if ')' = ')' ∧ rest.takeWhile pyIsSpace ≠ [] ∧
          plusPlusHead (rest.dropWhile pyIsSpace) = true then
        ')' :: tightenGo k (rest.dropWhile pyIsSpace)
      else ')' :: tightenGo k rest := rfl
  rw [h1]
  rw [if_neg ?hcond]
  case hcond =>
    intro hcontra
    obtain ⟨t, ht⟩ := plusPlusHead_true hcontra.2.2
    rw [rusMatch_of_dropWhile ht] at hno
    cases hno

theorem rusGo_eq_tightenGo :
    ∀ (N : Nat) (s : List Char) (m k : Nat),
      s.length ≤ N → s.length ≤ m → s.length ≤ k → rusGo m s = tightenGo k s := by
  intro N
  induction N with
  | zero =>
    intro s m k hN _ _
    have hs : s = [] := List.length_eq_zero.mp (Nat.le_zero.mp hN)
    subst hs
    cases m <;> cases k <;> rfl
  | succ N ih =>
    intro s m k hN hm hk
    cases s with
    | nil => cases m <;> cases k <;> rfl
    | cons c rest =>
      rw [List.length_cons] at hN hm hk
      obtain ⟨m', rfl⟩ : ∃ m', m = m' + 1 := ⟨m - 1, by omega⟩
      obtain ⟨k', rfl⟩ : ∃ k', k = k' + 1 := ⟨k - 1, by omega⟩
      have hrus : rusGo (m' + 1) (c :: rest) =
          match rusMatch (c :: rest) with
          | some tail => ')' :: '+' :: '+' :: rusGo m' tail
          | none =>
            match rusMatch2 (c :: rest) with
            | some tail => ')' :: '+' :: '+' :: rusGo m' tail
            | none => c :: rusGo m' rest := rfl
      rw [hrus]
      cases h1 : rusMatch (c :: rest) with
      | some tail =>
        obtain ⟨rest', heq, hd⟩ := rusMatch_some h1
        injection heq with hc hrest
        subst hc
        subst hrest
        have hlenrest := congrArg List.length
          (List.takeWhile_append_dropWhile (p := pyIsSpace) (l := rest))
        rw [hd] at hlenrest
        simp only [List.length_append, List.length_cons] at hlenrest
        rw [tightenGo_rparen_match k' rest tail hd]
        obtain ⟨k₂, rfl⟩ : ∃ k₂, k' = k₂ + 2 := ⟨k' - 2, by omega⟩
        rw [show k₂ + 2 = (k₂ + 1) + 1 from rfl,
          tightenGo_not_rparen (k₂ + 1) '+' ('+' :: tail) (by decide),
          tightenGo_not_rparen k₂ '+' tail (by decide)]
        have htail : rusGo m' tail = tightenGo k₂ tail :=
          ih tail m' k₂ (by omega) (by omega) (by omega)
        show ')' :: '+' :: '+' :: rusGo m' tail = ')' :: '+' :: '+' :: tightenGo k₂ tail
        rw [htail]
      | none =>
        cases h2 : rusMatch2 (c :: rest) with
        | some tail =>
          obtain ⟨t, heq, -⟩ := rusMatch2_some h2
          injection heq with hc hrest
          subst hc
          have hdw : rest.dropWhile pyIsSpace = '+' :: '+' :: t := by
            rw [hrest, List.dropWhile_cons, if_neg (by decide)]
          rw [rusMatch_of_dropWhile hdw] at h1
          cases h1
        | none =>
          show c :: rusGo m' rest = tightenGo (k' + 1) (c :: rest)
          by_cases hc : c = ')'
          · subst hc
            rw [tightenGo_rparen_nomatch k' rest h1]
            have hrest : rusGo m' rest = tightenGo k' rest :=
              ih rest m' k' (by omega) (by omega) (by omega)
            rw [hrest]
          · rw [tightenGo_not_rparen k' c rest hc]
            have hrest : rusGo m' rest = tightenGo k' rest :=
              ih rest m' k' (by omega) (by omega) (by omega)
            rw [hrest]

/-- Claim C8 (amended): the whitespace-tightening normalization deletes
exactly the whitespace standing between a closing parenthesis and an
immediately following run of AT LEAST TWO `'+'` characters, and alters
nothing else; a single `'+'` after the whitespace is not tightened (see the
counterexample), because both regex alternatives demand two `'+'`. -/
theorem tighten_characterization (s : List Char) :
    remove_unnecessary_spaces s = tightenSpec s :=
  rusGo_eq_tightenGo s.length s s.length s.length (Nat.le_refl _)
    (Nat.le_refl _) (Nat.le_refl _)

/-- Claim C8, counterexample to the claim as stated: in `") +"` the run
after the whitespace has length one, and the space between `')'` and `'+'`
is NOT removed, though the claim promises whitespace removal before runs
of any length. -/
theorem tighten_skips_single_plus :
    remove_unnecessary_spaces [')', ' ', '+'] = [')', ' ', '+'] ∧
    [')', ' ', '+'] ≠ [')', '+'] :=
  ⟨rfl, by decide⟩

/-! Reconciliation: the splice loop over extracted positions agrees with the
specification-side lock-step splice when the extractor reports exactly the
maximal runs. -/

theorem pySlice_full (x : List Char) : pySlice x 0 x.length = x := by
  have h := pySlice_coe x 0 x.length
  simpa [List.take_length] using h

theorem spliceLoop_eq_spliceGo (o t : List Char) :
    ∀ (ro rt : List (Nat × Nat)) (cur : Nat),
      spliceLoop o t ((toTriples ro).zip (toTriples rt)) (cur : Int) =
        spliceGo o t ro rt cur := by
  intro ro
  induction ro with
  | nil =>
    intro rt cur
    show pySlice t (cur : Int) t.length = t.drop cur
    exact pySlice_drop t cur
  | cons hd ro' ih =>
    intro rt cur
    cases rt with
    | nil =>
      obtain ⟨is, ie⟩ := hd
      show pySlice t (cur : Int) t.length = t.drop cur
      exact pySlice_drop t cur
    | cons hd' rt' =>
      obtain ⟨is, ie⟩ := hd
      obtain ⟨os, oe⟩ := hd'
      show pySlice t (cur : Int) (os : Int) ++ pySlice o (is : Int) (ie : Int) ++
          spliceLoop o t ((toTriples ro').zip (toTriples rt')) (oe : Int) =
        (t.take os).drop cur ++ (o.take ie).drop is ++ spliceGo o t ro' rt' oe
      rw [pySlice_coe, pySlice_coe, ih rt' oe]

/-- Claim C2 (amended): whenever `extract_plus_positions` reports exactly
the maximal contiguous `'+'` runs for both strings (which the claim's
counterexample shows is not always the case) and the run counts agree,
reconciliation returns the translated text with each of its runs replaced,
in ordinal order, by the slice of the original covering the corresponding
original run — regardless of the two runs' lengths — copying the
translated text between runs and after the last run verbatim. -/
theorem match_pluses_substitutes (o t : List Char)
    (h1 : extract_plus_positions o = .ok (toTriples (plusRuns o 0)))
    (h2 : extract_plus_positions t = .ok (toTriples (plusRuns t 0)))
    (hlen : (plusRuns o 0).length = (plusRuns t 0).length) :
    match_pluses o t = .ok (specSplice o t) := by
  unfold match_pluses
  rw [h1, h2]
  have hlen2 : (toTriples (plusRuns o 0)).length = (toTriples (plusRuns t 0)).length := by
    simp [toTriples, hlen]
  show (if (toTriples (plusRuns o 0)).length = (toTriples (plusRuns t 0)).length then
      Except.ok (spliceLoop o t
        ((toTriples (plusRuns o 0)).zip (toTriples (plusRuns t 0))) 0)
    else Except.ok (pySlice t 0 t.length)) = Except.ok (specSplice o t)
  rw [if_pos hlen2]
  have h := spliceLoop_eq_spliceGo o t (plusRuns o 0) (plusRuns t 0) 0
  rw [Nat.cast_zero] at h
  rw [h]
  rfl

/-- Claim C2, counterexample to the claim as stated: `"a++b"` and `"c+d"`
each contain exactly one maximal `'+'` run, yet the reconciler leaves the
translated text unchanged (`"c+d"`) instead of splicing the original's
`"++"` to produce `"c++d"`: the extractor reports no runs for either
string, because a run is only reported when a later run follows it or when
it ends exactly at the end of the string. -/
theorem reconcile_misses_equal_runs :
    (plusRuns ['a', '+', '+', 'b'] 0).length = (plusRuns ['c', '+', 'd'] 0).length ∧
    match_pluses ['a', '+', '+', 'b'] ['c', '+', 'd'] = .ok ['c', '+', 'd'] ∧
    specSplice ['a', '+', '+', 'b'] ['c', '+', 'd'] = ['c', '+', '+', 'd'] ∧
    ['c', '+', 'd'] ≠ ['c', '+', '+', 'd'] :=
  ⟨rfl, rfl, rfl, by decide⟩

/-- Witness for `match_pluses_substitutes`: on `"a+b++"` and `"x++y+"` the
extractor does report the maximal runs, the counts agree, and the amended
claim's conclusion holds. -/
theorem match_pluses_substitutes_witness :
    extract_plus_positions ['a', '+', 'b', '+', '+'] =
      .ok (toTriples (plusRuns ['a', '+', 'b', '+', '+'] 0)) ∧
    extract_plus_positions ['x', '+', '+', 'y', '+'] =
      .ok (toTriples (plusRuns ['x', '+', '+', 'y', '+'] 0)) ∧
    (plusRuns ['a', '+', 'b', '+', '+'] 0).length =
      (plusRuns ['x', '+', '+', 'y', '+'] 0).length ∧
    match_pluses ['a', '+', 'b', '+', '+'] ['x', '+', '+', 'y', '+'] =
      .ok (specSplice ['a', '+', 'b', '+', '+'] ['x', '+', '+', 'y', '+']) :=
  ⟨rfl, rfl, rfl, match_pluses_substitutes _ _ rfl rfl rfl⟩

/-- Claim C5 (amended): when the run lists computed by
`extract_plus_positions` on the original and on the whitespace-tightened
translated text have different lengths, post-processing returns exactly the
tightened translated text: no run substitution is applied. -/
theorem mismatch_returns_translated (o t : List Char)
    (po pt : List (Int × Int × Int))
    (h1 : extract_plus_positions o = .ok po)
    (h2 : extract_plus_positions (remove_unnecessary_spaces t) = .ok pt)
    (hlen : po.length ≠ pt.length) :
    post_process_prompt o t = .ok (remove_unnecessary_spaces t) := by
  unfold post_process_prompt match_pluses
  rw [h1, h2]
  show (if po.length = pt.length then
      Except.ok (spliceLoop o (remove_unnecessary_spaces t) (po.zip pt) 0)
    else Except.ok (pySlice (remove_unnecessary_spaces t) 0
      (remove_unnecessary_spaces t).length)) =
    Except.ok (remove_unnecessary_spaces t)
  rw [if_neg hlen, pySlice_full]

/-- Claim C5, counterexample to the claim as stated: the original
`"a++b+c"` has two maximal `'+'` runs and the translated `"x+"` has one, so
by the claim the translated text should be returned unchanged; instead the
extractor sees one run on each side (it drops the original's final run) and
substitutes, producing `"x++"`. -/
theorem mismatch_still_substitutes :
    (plusRuns ['a', '+', '+', 'b', '+', 'c'] 0).length = 2 ∧
    (plusRuns ['x', '+'] 0).length = 1 ∧
    post_process_prompt ['a', '+', '+', 'b', '+', 'c'] ['x', '+'] =
      .ok ['x', '+', '+'] ∧
    ['x', '+', '+'] ≠ ['x', '+'] :=
  ⟨rfl, rfl, rfl, by decide⟩

/-- Witness for `mismatch_returns_translated`: original `"a+b+"` yields two
extracted runs, translated `"c+d"` yields none, and post-processing returns
the translated text with only the space-tightening applied. -/
theorem mismatch_returns_translated_witness :
    extract_plus_positions ['a', '+', 'b', '+'] =
      .ok [((1 : Int), (2 : Int), (1 : Int)), ((3 : Int), (4 : Int), (1 : Int))] ∧
    extract_plus_positions (remove_unnecessary_spaces ['c', '+', 'd']) = .ok [] ∧
    post_process_prompt ['a', '+', 'b', '+'] ['c', '+', 'd'] =
      .ok (remove_unnecessary_spaces ['c', '+', 'd']) :=
  ⟨rfl, rfl, mismatch_returns_translated _ _ _ _ rfl rfl (by decide)⟩

/-! Batch memoization: the prompt loop re-processes exactly the prompts that
differ from their immediate predecessor. -/

theorem translateLoop_memo (gen : List Char → String → String → List Char)
    (cache : List Char → Option (List Char)) (ln : String)
    (f : List Char → List Char) :
    ∀ (prompts : List (List Char)) (prev : List Char),
      (∀ q ∈ prompts, ∃ c, processOnePromptC gen cache ln q = .ok (f q, c)) →
      ∃ cs, translateLoop gen cache ln prev (f prev) prompts =
        .ok (prompts.map f, adjacentNew prev prompts, cs) := by
  intro prompts
  induction prompts with
  | nil => intro prev _; exact ⟨[], rfl⟩
  | cons p ps ih =>
    intro prev h
    obtain ⟨c, hc⟩ := h p (List.mem_cons_self p ps)
    by_cases hne : prev ≠ p
    · obtain ⟨cs, hcs⟩ := ih p (fun q hq => h q (List.mem_cons_of_mem p hq))
      refine ⟨c ++ cs, ?_⟩
      simp only [translateLoop, if_pos hne, hc, hcs]
      simp [adjacentNew, if_pos hne]
    · push_neg at hne
      subst hne
      obtain ⟨cs, hcs⟩ := ih prev (fun q hq => h q (List.mem_cons_of_mem prev hq))
      refine ⟨cs, ?_⟩
      simp only [translateLoop, if_neg (by simp : ¬ prev ≠ prev), hcs]
      simp [adjacentNew]

/-- Claim C6 (amended): in the batch prompt loop, an output slot is filled
by copying the previous translation, without re-entering the translating
branch, exactly when the prompt equals its IMMEDIATE predecessor (the
initial comparison value being the empty string); a duplicate of any
non-adjacent earlier prompt is re-processed.  Under the hypotheses that
every prompt in the batch processes successfully, with result described by
`f`, and that `f` fixes the empty string, the loop returns every slot's own
translation and enters the translating branch exactly at the positions
`adjacentNew` describes. -/
theorem batch_memoization (gen : List Char → String → String → List Char)
    (cache : List Char → Option (List Char)) (ln : String)
    (f : List Char → List Char) (prompts : List (List Char))
    (hf : f [] = [])
    (h : ∀ q ∈ prompts, ∃ c, processOnePromptC gen cache ln q = .ok (f q, c)) :
    ∃ cs, translateLoop gen cache ln [] [] prompts =
      .ok (prompts.map f, adjacentNew [] prompts, cs) := by
  have hmemo := translateLoop_memo gen cache ln f prompts [] h
  rwa [hf] at hmemo

/-- Claim C6, counterexample to the claim as stated: in the batch
`["a", "b", "a"]` the third prompt equals the first (an earlier, but not
immediately preceding, occurrence), yet it re-enters the translating branch:
the list of prompts entering the branch contains `"a"` twice, because the
source only compares with `previous_prompt`. -/
theorem nonadjacent_duplicate_retranslated :
    translateLoop constGen emptyCache "zh_CN" [] [] [['a'], ['b'], ['a']] =
      .ok ([['a'], ['b'], ['a']], [['a'], ['b'], ['a']], []) ∧
    ([['a'], ['b'], ['a']] : List (List Char)).count ['a'] = 2 :=
  ⟨rfl, by decide⟩

/-- Witness for `batch_memoization`: a batch of two identical prompts
`"a"`; the second slot is copied and only the first position enters the
translating branch. -/
theorem batch_memoization_witness :
    ∃ cs, translateLoop constGen emptyCache "zh_CN" [] [] [['a'], ['a']] =
      .ok (([['a'], ['a']] : List (List Char)).map (fun q => q),
        adjacentNew [] [['a'], ['a']], cs) :=
  batch_memoization constGen emptyCache "zh_CN" (fun q => q) [['a'], ['a']] rfl
    (by
      intro q hq
      simp only [List.mem_cons, List.not_mem_nil, or_false] at hq
      rcases hq with rfl | rfl <;> exact ⟨[], rfl⟩)

/-! Unsupported language: any successful processing happened without a
single call to the opaque translator, because every call would have raised
the unsupported-language error before producing a value. -/

theorem transferC_no_calls {gen : List Char → String → String → List Char}
    {cache : List Char → Option (List Char)} {ln : String}
    {t r : List Char} {cs : List (List Char)}
    (hln : ln ∉ supported_languages)
    (h : transferC gen cache ln t = .ok (r, cs)) : cs = [] := by
  unfold transferC at h
  cases hcache : cache t with
  | some v =>
    rw [hcache] at h
    cases h
    rfl
  | none =>
    rw [hcache] at h
    unfold mbart_translate at h
    rw [if_pos hln] at h
    cases h

theorem translateFragmentsC_no_calls {gen : List Char → String → String → List Char}
    {cache : List Char → Option (List Char)} {ln : String}
    (hln : ln ∉ supported_languages) :
    ∀ {fs rs : List (List Char)} {cs : List (List Char)},
      translateFragmentsC gen cache ln fs = .ok (rs, cs) → cs = [] := by
  intro fs
  induction fs with
  | nil =>
    intro rs cs h
    cases h
    rfl
  | cons f fs' ih =>
    intro rs cs h
    simp only [translateFragmentsC] at h
    by_cases he : is_english f = true
    · rw [if_pos he] at h
      cases hrec : translateFragmentsC gen cache ln fs' with
      | error e => rw [hrec] at h; cases h
      | ok pr =>
        obtain ⟨rs', cs'⟩ := pr
        rw [hrec] at h
        cases h
        rw [ih hrec]
        rfl
    · rw [if_neg he] at h
      cases htr : transferC gen cache ln f with
      | error e => rw [htr] at h; cases h
      | ok pr =>
        obtain ⟨r0, cs0⟩ := pr
        rw [htr] at h
        cases hrec : translateFragmentsC gen cache ln fs' with
        | error e => rw [hrec] at h; cases h
        | ok pr' =>
          obtain ⟨rs', cs'⟩ := pr'
          rw [hrec] at h
          cases h
          rw [transferC_no_calls hln htr, ih hrec]
          rfl

theorem translatePartsC_no_calls {gen : List Char → String → String → List Char}
    {cache : List Char → Option (List Char)} {ln : String}
    (hln : ln ∉ supported_languages) :
    ∀ {parts : List (List Char)} {out : List Char} {cs : List (List Char)},
      translatePartsC gen cache ln parts = .ok (out, cs) → cs = [] := by
  intro parts
  induction parts with
  | nil =>
    intro out cs h
    cases h
    rfl
  | cons part rest ih =>
    intro out cs h
    simp only [translatePartsC] at h
    by_cases hd : checkDir part = true
    · rw [if_pos hd] at h
      cases hrec : translatePartsC gen cache ln rest with
      | error e => rw [hrec] at h; cases h
      | ok pr =>
        obtain ⟨out', cs'⟩ := pr
        rw [hrec] at h
        cases h
        exact ih hrec
    · rw [if_neg hd] at h
      cases hfr : translateFragmentsC gen cache ln (splitComma part) with
      | error e => rw [hfr] at h; cases h
      | ok pr =>
        obtain ⟨frs, cs0⟩ := pr
        rw [hfr] at h
        cases hrec : translatePartsC gen cache ln rest with
        | error e => rw [hrec] at h; cases h
        | ok pr' =>
          obtain ⟨out', cs'⟩ := pr'
          rw [hrec] at h
          cases h
          rw [translateFragmentsC_no_calls hln hfr, ih hrec]
          rfl

theorem processOnePromptC_no_calls {gen : List Char → String → String → List Char}
    {cache : List Char → Option (List Char)} {ln : String}
    {p r : List Char} {cs : List (List Char)}
    (hln : ln ∉ supported_languages)
    (h : processOnePromptC gen cache ln p = .ok (r, cs)) : cs = [] := by
  unfold processOnePromptC process_textC at h
  cases hpt : translatePartsC gen cache ln (pySplitDirectives (normalizeText p)) with
  | error e => rw [hpt] at h; cases h
  | ok pr =>
    obtain ⟨t0, cs0⟩ := pr
    rw [hpt] at h
    have h2 : (match post_process_prompt p t0 with
        | Except.error e => (Except.error e : Except Err (List Char × List (List Char)))
        | Except.ok r0 => Except.ok (r0, cs0)) = Except.ok (r, cs) := h
    cases hpp : post_process_prompt p t0 with
    | error e => rw [hpp] at h2; cases h2
    | ok r0 =>
      rw [hpp] at h2
      cases h2
      exact translatePartsC_no_calls hln hpt

theorem translateLoop_no_calls {gen : List Char → String → String → List Char}
    {cache : List Char → Option (List Char)} {ln : String}
    (hln : ln ∉ supported_languages) :
    ∀ {prompts : List (List Char)} {prev prevT : List Char}
      {outs inv cs : List (List Char)},
      translateLoop gen cache ln prev prevT prompts = .ok (outs, inv, cs) →
      cs = [] := by
  intro prompts
  induction prompts with
  | nil =>
    intro prev prevT outs inv cs h
    cases h
    rfl
  | cons p ps ih =>
    intro prev prevT outs inv cs h
    simp only [translateLoop] at h
    by_cases hne : prev ≠ p
    · rw [if_pos hne] at h
      cases hp : processOnePromptC gen cache ln p with
      | error e => rw [hp] at h; cases h
      | ok pr =>
        obtain ⟨tp, cs0⟩ := pr
        rw [hp] at h
        have h2 : (match translateLoop gen cache ln p tp ps with
            | Except.error e => (Except.error e :
                Except Err (List (List Char) × List (List Char) × List (List Char)))
            | Except.ok (outs', inv', cs') =>
                Except.ok (tp :: outs', p :: inv', cs0 ++ cs')) =
            Except.ok (outs, inv, cs) := h
        cases hrec : translateLoop gen cache ln p tp ps with
        | error e => rw [hrec] at h2; cases h2
        | ok tr =>
          obtain ⟨outs', inv', cs'⟩ := tr
          rw [hrec] at h2
          cases h2
          rw [processOnePromptC_no_calls hln hp, ih hrec]
          rfl
    · rw [if_neg hne] at h
      cases hrec : translateLoop gen cache ln prev prevT ps with
      | error e => rw [hrec] at h; cases h
      | ok tr =>
        obtain ⟨outs', inv', cs'⟩ := tr
        rw [hrec] at h
        cases h
        exact ih hrec

/-- Claim C7 (amended): when the supplied source language code is outside
the supported set, every invocation of the opaque translator raises the
unsupported-language error, so a batch can only complete successfully if no
fragment of any prompt ever reached the translator (each fragment passed the
is-english gate or hit the cache): a successful run reports an empty
translator-call list.  When a call is reached, the raised error propagates
before any field assignment (all assignments in the source follow both
loops), so the prompt object is never partially substituted — but, contrary
to the claim as stated, the batch does NOT always fail (see the
counterexample). -/
theorem unsupported_blocks_translation
    (gen : List Char → String → String → List Char)
    (cache : List Char → Option (List Char)) (ln : String)
    (negActive : Bool) (p : PObj) (p' : PObj) (cs : List (List Char))
    (hln : ln ∉ supported_languages)
    (h : script_process gen cache ln negActive p = .ok (p', cs)) : cs = [] := by
  unfold script_process at h
  split at h
  · cases h
  · rename_i touts inv1 cs1 h1
    split at h
    · split at h
      · cases h
      · rename_i nouts inv2 cs2 h2
        split at h
        · cases h
        · split at h
          · cases h
          · cases h
            rw [translateLoop_no_calls hln h1, translateLoop_no_calls hln h2]
            rfl
    · split at h
      · cases h
      · cases h
        exact translateLoop_no_calls hln h1

/-- Claim C7, counterexample to the claim as stated: with the unsupported
code `"xx_XX"` a batch whose only prompt is all-ASCII (`"a) ++b"`) does not
fail at all — the translator is never consulted — and the prompt fields ARE
modified (post-processing tightens the space), so the "whole batch fails"
part of the claim is false. -/
theorem unsupported_batch_succeeds :
    ("xx_XX" ∉ supported_languages) ∧
    script_process constGen emptyCache "xx_XX" false
      ⟨['a', ')', ' ', '+', '+', 'b'], [['a', ')', ' ', '+', '+', 'b']], [], [],
        ['a', ')', ' ', '+', '+', 'b']⟩ =
      .ok (⟨['a', ')', '+', '+', 'b'], [['a', ')', '+', '+', 'b']], [], [],
        ['a', ')', '+', '+', 'b']⟩, []) ∧
    (['a', ')', '+', '+', 'b'] : List Char) ≠ ['a', ')', ' ', '+', '+', 'b'] :=
  ⟨by decide, rfl, by decide⟩

/-- Witness for `unsupported_blocks_translation` at a concrete unsupported
code and an all-ASCII prompt object. -/
theorem unsupported_blocks_translation_witness :
    ("xx_XX" ∉ supported_languages) ∧ ([] : List (List Char)) = [] :=
  ⟨by decide,
    unsupported_blocks_translation constGen emptyCache "xx_XX" false
      ⟨['a'], [['a']], [], [], ['a']⟩ ⟨['a'], [['a']], [], [], ['a']⟩ []
      (by decide) rfl⟩

/-- Claim C10: the negative prompts are translated and substituted only when
both the translate-negative-prompt flag is set and the object's
`negative_prompt` field is a non-empty string; in every other case — in
particular when the flag is set but `negative_prompt` is empty, even if
other entries of `all_negative_prompts` are non-empty — a successful run
leaves `negative_prompt` and `all_negative_prompts` completely unchanged
while the main prompts are still translated and substituted (the
`all_prompts` slots are the loop's outputs and `prompt` and
`prompt_for_display` receive the first of them). -/
theorem negative_prompt_frame
    (gen : List Char → String → String → List Char)
    (cache : List Char → Option (List Char)) (ln : String)
    (negActive : Bool) (p p' : PObj) (cs : List (List Char))
    (hcond : ¬(p.negative_prompt ≠ [] ∧ negActive = true))
    (h : script_process gen cache ln negActive p = .ok (p', cs)) :
    p'.negative_prompt = p.negative_prompt ∧
    p'.all_negative_prompts = p.all_negative_prompts ∧
    ∃ t0 trest inv1,
      translateLoop gen cache ln [] []
        (if 0 < p.all_prompts.length then p.all_prompts else [p.prompt]) =
        .ok (t0 :: trest, inv1, cs) ∧
      p'.all_prompts = t0 :: trest ∧ p'.prompt = t0 ∧
      p'.prompt_for_display = t0 := by
  unfold script_process at h
  split at h
  · cases h
  · rename_i touts inv1 cs1 h1
    split at h
    · rename_i hc
      exact absurd hc hcond
    · split at h
      · cases h
      · rename_i t0 trest
        cases h
        exact ⟨rfl, rfl, t0, trest, inv1, h1, rfl, rfl, rfl⟩

/-- Witness for `negative_prompt_frame`: flag set, `negative_prompt` empty,
`all_negative_prompts` containing a non-empty entry `"x"`; the negative
fields survive unchanged and the main prompt is still processed. -/
theorem negative_prompt_frame_witness :
    ([] : List Char) = [] ∧ ([['x']] : List (List Char)) = [['x']] ∧
    ∃ t0 trest inv1,
      translateLoop constGen emptyCache "zh_CN" [] []
        (if 0 < ([['a']] : List (List Char)).length then [['a']] else [['a']]) =
        .ok (t0 :: trest, inv1, []) ∧
      ([['a']] : List (List Char)) = t0 :: trest ∧ (['a'] : List Char) = t0 ∧
      (['a'] : List Char) = t0 :=
  negative_prompt_frame constGen emptyCache "zh_CN" true
    ⟨['a'], [['a']], [], [['x']], ['a']⟩ ⟨['a'], [['a']], [], [['x']], ['a']⟩ []
    (by decide) rfl

/-! Directive pass-through: structural facts about the segmenter's parts. -/

theorem dropWhile_find_gt :
    ∀ (l : List Char), '>' ∈ l → ∃ t, l.dropWhile (fun x => x ≠ '>') = '>' :: t := by
  intro l
  induction l with
  | nil => intro h; simp at h
  | cons c rest ih =>
    intro h
    by_cases hc : c = '>'
    · subst hc
      exact ⟨rest, by rw [List.dropWhile_cons, if_neg (by simp)]⟩
    · have hmem : '>' ∈ rest := by
        rcases List.mem_cons.mp h with h' | h'
        · exact absurd h'.symm hc
        · exact h'
      obtain ⟨t, ht⟩ := ih hmem
      exact ⟨t, by rw [List.dropWhile_cons, if_pos (by simpa using hc), ht]⟩

/-- A string with no directive match has no `'<'` followed (anywhere later)
by a `'>'`. -/
theorem fd_none_sub :
    ∀ (s : List Char), findDirective s = none → ¬ List.Sublist ['<', '>'] s := by
  intro s
  induction s with
  | nil => intro _ hsub; simp at hsub
  | cons c rest ih =>
    intro h hsub
    simp only [findDirective] at h
    by_cases hc : c = '<'
    · rw [if_pos hc] at h
      subst hc
      have hgt : '>' ∉ rest := by
        intro hmem
        obtain ⟨t, ht⟩ := dropWhile_find_gt rest hmem
        rw [ht] at h
        cases h
      cases hsub with
      | cons a h' => exact hgt (h'.subset (by simp))
      | cons₂ a h' => exact hgt (h'.subset (by simp))
    · rw [if_neg hc] at h
      have hrec : findDirective rest = none := by
        cases hfd : findDirective rest with
        | none => rfl
        | some r =>
          obtain ⟨a, b, c'⟩ := r
          rw [hfd] at h
          cases h
      cases hsub with
      | cons a h' => exact ih hrec h'
      | cons₂ a h' => exact hc rfl

theorem splitComma_ne_nil : ∀ (l : List Char), splitComma l ≠ [] := by
  intro l
  cases l with
  | nil => simp [splitComma]
  | cons c rest =>
    simp only [splitComma]
    by_cases hc : c = ','
    · rw [if_pos hc]; simp
    · rw [if_neg hc]
      cases h : splitComma rest <;> simp

/-- Every comma fragment is a sublist of the split string. -/
theorem splitComma_sublist :
    ∀ (l f : List Char), f ∈ splitComma l → List.Sublist f l := by
  intro l
  induction l with
  | nil =>
    intro f hf
    simp [splitComma] at hf
    subst hf
    exact List.nil_sublist _
  | cons c rest ih =>
    intro f hf
    simp only [splitComma] at hf
    by_cases hc : c = ','
    · rw [if_pos hc] at hf
      rcases List.mem_cons.mp hf with rfl | hf'
      · exact List.nil_sublist _
      · exact (ih f hf').cons c
    · rw [if_neg hc] at hf
      cases hrest : splitComma rest with
      | nil => exact absurd hrest (splitComma_ne_nil rest)
      | cons f0 fs =>
        rw [hrest] at hf
        rcases List.mem_cons.mp hf with rfl | hf'
        · have hf0 : f0 ∈ splitComma rest := by
            rw [hrest]
            exact List.mem_cons_self _ _
          exact (ih f0 hf0).cons₂ c
        · have hfmem : f ∈ splitComma rest := by
            rw [hrest]
            exact List.mem_cons_of_mem _ hf'
          exact (ih f hfmem).cons c

theorem checkDir_bracket (body : List Char) : checkDir ('<' :: body ++ ['>']) = true := by
  unfold checkDir pyStartsWith pyEndsWith
  rw [List.getLast?_concat]
  rfl

theorem checkDir_shape {d : List Char} (h : checkDir d = true) :
    ∃ mid, d = '<' :: mid ++ ['>'] := by
  unfold checkDir at h
  rw [Bool.and_eq_true] at h
  obtain ⟨h1, h2⟩ := h
  cases d with
  | nil => simp [pyStartsWith] at h1
  | cons c rest =>
    have hc : c = '<' := by simpa [pyStartsWith] using h1
    subst hc
    rcases rest.eq_nil_or_concat with rfl | ⟨l', a, hconcat⟩
    · simp [pyEndsWith] at h2
    · rw [List.concat_eq_append] at hconcat
      subst hconcat
      have hlast : (('<' :: l') ++ [a]).getLast? = some a := List.getLast?_concat _
      unfold pyEndsWith at h2
      rw [show ('<' :: (l' ++ [a]) : List Char) = ('<' :: l') ++ [a] from rfl, hlast] at h2
      have ha : a = '>' := by simpa using h2
      subst ha
      exact ⟨l', rfl⟩

theorem bracket_sublist {d : List Char} (h : checkDir d = true) :
    List.Sublist ['<', '>'] d := by
  obtain ⟨mid, rfl⟩ := checkDir_shape h
  exact List.Sublist.cons₂ '<' (List.sublist_append_right mid ['>'])

/-- Every part of the split that fails the directive test contains no `'<'`
followed later by a `'>'` (in particular, no complete directive). -/
theorem psGo_literal_no_bracket :
    ∀ (fuel : Nat) (s : List Char), s.length ≤ fuel →
      ∀ P ∈ psGo fuel s, checkDir P = false → ¬ List.Sublist ['<', '>'] P := by
  intro fuel
  induction fuel with
  | zero =>
    intro s hlen P hP _
    have hs : s = [] := List.length_eq_zero.mp (Nat.le_zero.mp hlen)
    subst hs
    simp only [psGo, List.mem_singleton] at hP
    subst hP
    simp
  | succ n ih =>
    intro s hlen P hP hcheck
    simp only [psGo] at hP
    cases hfd : findDirective s with
    | none =>
      rw [hfd] at hP
      simp only [List.mem_singleton] at hP
      subst hP
      exact fd_none_sub _ hfd
    | some r =>
      obtain ⟨pre, d, post⟩ := r
      rw [hfd] at hP
      obtain ⟨hsum, ⟨body, hshape⟩, hpre⟩ := fd_spec s pre d post hfd
      simp only [List.mem_cons] at hP
      rcases hP with rfl | rfl | hP
      · intro hsub
        exact hpre (hsub.subset (by simp))
      · rw [hshape, checkDir_bracket body] at hcheck
        cases hcheck
      · have hl := congrArg List.length hsum
        rw [hshape] at hl
        simp only [List.length_append, List.length_cons] at hl
        exact ih post (by omega) P hP hcheck

theorem transferC_calls {gen : List Char → String → String → List Char}
    {cache : List Char → Option (List Char)} {ln : String}
    {t r : List Char} {cs : List (List Char)}
    (h : transferC gen cache ln t = .ok (r, cs)) : ∀ c ∈ cs, c = t := by
  unfold transferC at h
  cases hcache : cache t with
  | some v =>
    rw [hcache] at h
    cases h
    intro c hc
    simp at hc
  | none =>
    rw [hcache] at h
    cases hm : mbart_translate gen t ln "en_XX" with
    | error e => rw [hm] at h; cases h
    | ok v =>
      rw [hm] at h
      cases h
      intro c hc
      simpa using hc

theorem translateFragmentsC_calls {gen : List Char → String → String → List Char}
    {cache : List Char → Option (List Char)} {ln : String} :
    ∀ {fs rs cs : List (List Char)},
      translateFragmentsC gen cache ln fs = .ok (rs, cs) → ∀ c ∈ cs, c ∈ fs := by
  intro fs
  induction fs with
  | nil =>
    intro rs cs h c hc
    cases h
    simp at hc
  | cons f fs' ih =>
    intro rs cs h c hc
    simp only [translateFragmentsC] at h
    by_cases he : is_english f = true
    · rw [if_pos he] at h
      cases hrec : translateFragmentsC gen cache ln fs' with
      | error e => rw [hrec] at h; cases h
      | ok pr =>
        obtain ⟨rs', cs'⟩ := pr
        rw [hrec] at h
        cases h
        rw [List.nil_append] at hc
        exact List.mem_cons_of_mem f (ih hrec c hc)
    · rw [if_neg he] at h
      cases htr : transferC gen cache ln f with
      | error e => rw [htr] at h; cases h
      | ok pr =>
        obtain ⟨r0, cs0⟩ := pr
        rw [htr] at h
        cases hrec : translateFragmentsC gen cache ln fs' with
        | error e => rw [hrec] at h; cases h
        | ok pr' =>
          obtain ⟨rs', cs'⟩ := pr'
          rw [hrec] at h
          cases h
          rcases List.mem_append.mp hc with hc0 | hc'
          · rw [transferC_calls htr c hc0]
            exact List.mem_cons_self f fs'
          · exact List.mem_cons_of_mem f (ih hrec c hc')

theorem translatePartsC_calls {gen : List Char → String → String → List Char}
    {cache : List Char → Option (List Char)} {ln : String} :
    ∀ {parts : List (List Char)} {out : List Char} {cs : List (List Char)},
      translatePartsC gen cache ln parts = .ok (out, cs) →
      ∀ c ∈ cs, ∃ P ∈ parts, checkDir P = false ∧ c ∈ splitComma P := by
  intro parts
  induction parts with
  | nil =>
    intro out cs h c hc
    cases h
    simp at hc
  | cons part rest ih =>
    intro out cs h c hc
    simp only [translatePartsC] at h
    by_cases hd : checkDir part = true
    · rw [if_pos hd] at h
      cases hrec : translatePartsC gen cache ln rest with
      | error e => rw [hrec] at h; cases h
      | ok pr =>
        obtain ⟨out', cs'⟩ := pr
        rw [hrec] at h
        cases h
        obtain ⟨P, hP, hPf, hcP⟩ := ih hrec c hc
        exact ⟨P, List.mem_cons_of_mem part hP, hPf, hcP⟩
    · rw [if_neg hd] at h
      cases hfr : translateFragmentsC gen cache ln (splitComma part) with
      | error e => rw [hfr] at h; cases h
      | ok pr =>
        obtain ⟨frs, cs0⟩ := pr
        rw [hfr] at h
        cases hrec : translatePartsC gen cache ln rest with
        | error e => rw [hrec] at h; cases h
        | ok pr' =>
          obtain ⟨out', cs'⟩ := pr'
          rw [hrec] at h
          cases h
          rcases List.mem_append.mp hc with hc0 | hc'
          · exact ⟨part, List.mem_cons_self part rest,
              Bool.not_eq_true _ ▸ eq_false_of_ne_true hd,
              translateFragmentsC_calls hfr c hc0⟩
          · obtain ⟨P, hP, hPf, hcP⟩ := ih hrec c hc'
            exact ⟨P, List.mem_cons_of_mem part hP, hPf, hcP⟩

theorem translatePartsC_directive_infix {gen : List Char → String → String → List Char}
    {cache : List Char → Option (List Char)} {ln : String} :
    ∀ {parts : List (List Char)} {out : List Char} {cs : List (List Char)},
      translatePartsC gen cache ln parts = .ok (out, cs) →
      ∀ P ∈ parts, checkDir P = true → ∃ u v, out = u ++ P ++ v := by
  intro parts
  induction parts with
  | nil =>
    intro out cs h P hP _
    simp at hP
  | cons part rest ih =>
    intro out cs h P hP hdir
    simp only [translatePartsC] at h
    by_cases hd : checkDir part = true
    · rw [if_pos hd] at h
      cases hrec : translatePartsC gen cache ln rest with
      | error e => rw [hrec] at h; cases h
      | ok pr =>
        obtain ⟨out', cs'⟩ := pr
        rw [hrec] at h
        cases h
        rcases List.mem_cons.mp hP with rfl | hP'
        · exact ⟨[], out', by simp⟩
        · obtain ⟨u, v, huv⟩ := ih hrec P hP' hdir
          exact ⟨part ++ u, v, by simp [huv, List.append_assoc]⟩
    · rw [if_neg hd] at h
      cases hfr : translateFragmentsC gen cache ln (splitComma part) with
      | error e => rw [hfr] at h; cases h
      | ok pr =>
        obtain ⟨frs, cs0⟩ := pr
        rw [hfr] at h
        cases hrec : translatePartsC gen cache ln rest with
        | error e => rw [hrec] at h; cases h
        | ok pr' =>
          obtain ⟨out', cs'⟩ := pr'
          rw [hrec] at h
          cases h
          rcases List.mem_cons.mp hP with rfl | hP'
          · exact absurd hdir hd
          · obtain ⟨u, v, huv⟩ := ih hrec P hP' hdir
            exact ⟨joinComma frs ++ u, v, by simp [huv, List.append_assoc]⟩

/-- Claim C1 (amended): for EVERY behaviour of the opaque translator and of
the translation cache, every directive span of the punctuation-normalized
prompt appears byte-for-byte in the output of the segmentation/translation
stage (`Script.process_text`), and the span's text is never among the texts
passed to the opaque translator.  (The counterexample shows the claim as
stated — byte-for-byte survival of the raw input's spans into the
pipeline's FINAL output — is false: punctuation normalization and the
plus-run post-processing may alter directive bytes.) -/
theorem directive_spans_preserved
    (gen : List Char → String → String → List Char)
    (cache : List Char → Option (List Char)) (ln : String)
    (text out : List Char) (cs : List (List Char))
    (h : process_textC gen cache ln text = .ok (out, cs)) :
    ∀ d ∈ directiveSpans (normalizeText text),
      (∃ u v, out = u ++ d ++ v) ∧ d ∉ cs := by
  intro d hd
  unfold directiveSpans at hd
  obtain ⟨hdp, hdc⟩ := List.mem_filter.mp hd
  unfold process_textC at h
  constructor
  · exact translatePartsC_directive_infix h d hdp hdc
  · intro hdcs
    obtain ⟨P, hP, hPfalse, hdP⟩ := translatePartsC_calls h d hdcs
    have hnosub := psGo_literal_no_bracket (normalizeText text).length
      (normalizeText text) (Nat.le_refl _) P hP hPfalse
    exact hnosub ((bracket_sublist hdc).trans (splitComma_sublist P d hdP))

/-- Claim C1, counterexample to the claim as stated: the prompt
`"<，) ++>"` consists of one directive span, yet the pipeline's final
output for it is `"<,)++>"`: punctuation normalization rewrites the
full-width comma inside the span and the post-processing space-tightening
deletes the space before `"++"`, so the input's span does not appear
byte-for-byte in the final output (it cannot even fit: the output is
shorter than the span). -/
theorem directive_span_mangled :
    directiveSpans ['<', '，', ')', ' ', '+', '+', '>'] =
      [['<', '，', ')', ' ', '+', '+', '>']] ∧
    processOnePromptC constGen emptyCache "zh_CN"
      ['<', '，', ')', ' ', '+', '+', '>'] =
      .ok (['<', ',', ')', '+', '+', '>'], []) ∧
    ¬ ∃ u v, (['<', ',', ')', '+', '+', '>'] : List Char) =
      u ++ ['<', '，', ')', ' ', '+', '+', '>'] ++ v := by
  refine ⟨rfl, rfl, ?_⟩
  rintro ⟨u, v, huv⟩
  have hl := congrArg List.length huv
  simp only [List.length_append, List.length_cons, List.length_nil] at hl
  omega

/-- Witness for `directive_spans_preserved`: the prompt `"a,<b>"` with a
concrete translator and empty cache; its single directive span `"<b>"`
survives byte-for-byte in the translation-stage output and is absent from
the translator-call list. -/
theorem directive_spans_preserved_witness :
    ((['<', 'b', '>'] : List Char) ∈
      directiveSpans (normalizeText ['a', ',', '<', 'b', '>'])) ∧
    ((∃ u v, (['a', ',', '<', 'b', '>'] : List Char) =
        u ++ ['<', 'b', '>'] ++ v) ∧
      (['<', 'b', '>'] : List Char) ∉ ([] : List (List Char))) :=
  ⟨by decide,
    directive_spans_preserved constGen emptyCache "zh_CN"
      ['a', ',', '<', 'b', '>'] ['a', ',', '<', 'b', '>'] [] rfl
      ['<', 'b', '>'] (by decide)⟩
